import Mathlib

/-!
Verification of the MPI master/worker task-distribution example
(`Quadrature/Quadrature.h`) and the trapezoidal quadrature routine
(`Quadrature.cpp`).

The C++ sources are embedded shallowly:

* `func_cheap` / `func_expensive` are the per-task functions (`Sleep` only
  delays and is dropped from the pure model).
* `slaveRun` embeds `slaveCode`'s receive loop, driven by the list of
  messages the master makes available to the worker, in delivery order.
* `inputDataGenerator` embeds the input generator; the pseudo-random
  engine is abstracted as a stream of naturals and
  `std::uniform_int_distribution(lo, hi)` is modelled as
  `lo + raw % (hi - lo + 1)`, which realises the standard's range
  guarantee.
* `MState`, `startupState`, `recvStep`, `runSched` embed `masterCode`:
  the startup loop over ranks `1..size-1`, and one iteration of the main
  receive loop per received result.  The zero-initialised `vector<int>`
  state of the master is modelled by total maps from indices; `sentTo`
  and `assigns` are ghost histories recording the payloads sent to each
  rank and the (task index, rank) dispatch events, in order.
* `trapSum` / `trapezoidal` embed `Quadrature::trapezoidal` over ℝ.

Nondeterministic arrival order of worker results is modelled by a
schedule: the list of ranks whose results the master receives, in order.
`ValidSteps` states that a schedule is consistent with the workers'
behaviour (a worker only reports when it holds an outstanding task and
the loop guard is live); `CompleteRun` additionally states that the
master's `while` loop has exited at the end of the schedule.
-/

/-- Pointwise update of a total map, used to embed writes into the
master's zero-initialised `vector<int>` state. -/
def upd {ι α : Type} [DecidableEq ι] (f : ι → α) (p : ι) (v : α) : ι → α :=
  fun k => if k = p then v else f k

@[simp] theorem upd_self {ι α : Type} [DecidableEq ι] (f : ι → α) (p : ι) (v : α) :
    upd f p v p = v := by
  simp [upd]

theorem upd_ne {ι α : Type} [DecidableEq ι] (f : ι → α) (p : ι) (v : α)
    {k : ι} (h : k ≠ p) : upd f p v k = f k := by
  simp [upd, h]

/-- `func_cheap` from the source: the task function, `x + 1`. -/
def func_cheap (x : ℤ) : ℤ := x + 1

/-- `func_expensive` from the source: `Sleep(100 * x)` followed by
`func_cheap(x)`; the delay has no effect on the returned value. -/
def func_expensive (x : ℤ) : ℤ := func_cheap x

/-- Embedding of `slaveCode`'s loop (lines 149-157): the worker receives
the messages of `msgs` in order; a negative value breaks the loop,
otherwise the worker computes `func_expensive` and sends the result to
the master.  Returns the list of results sent, and whether the loop was
exited (`true`) or the worker is still blocked waiting for the next
message (`false`). -/
def slaveRun : List ℤ → List ℤ × Bool
  | [] => ([], false)
  | x :: rest =>
    if x < 0 then ([], true)
    else ((func_expensive x) :: (slaveRun rest).1, (slaveRun rest).2)

/-- Model of `std::uniform_int_distribution(lo, hi)` applied to one raw
draw of the engine: a value in `[lo, hi]`. -/
def uniform_int_sample (lo hi : ℤ) (raw : ℕ) : ℤ :=
  lo + ((raw % (hi - lo + 1).toNat : ℕ) : ℤ)

/-- Embedding of `inputDataGenerator` (lines 49-59): `N` draws of the
distribution on `[0, 10]`; the pseudo-random engine is abstracted as the
stream `engine` of raw draws. -/
def inputDataGenerator (N : ℕ) (engine : ℕ → ℕ) : List ℤ :=
  (List.range N).map (fun k => uniform_int_sample 0 10 (engine k))

/-- One loop (`for k = 0..m-1`) of `Quadrature::trapezoidal`'s
accumulation: sample at `a + k*dx`, half weight (the literal `0.5`,
written `1 / 2`) when `k = 0` or `k = n`, full weight otherwise.  The
`double` arithmetic of the source is idealised as an arbitrary field. -/
def trapSum {α : Type} [Field α] (f : α → α) (a dx : α) (n : ℕ) : ℕ → α
  | 0 => 0
  | m + 1 =>
    trapSum f a dx n m +
      (if m = 0 ∨ m = n then (1 / 2) * f (a + (m : α) * dx) else f (a + (m : α) * dx))

/-- Embedding of `Quadrature::trapezoidal` (Quadrature.cpp lines 14-31):
`dx = (b-a)/(n+1)`, loop `k = 0..n+1`, final multiplication by `dx`. -/
def trapezoidal {α : Type} [Field α] (f : α → α) (a b : α) (n : ℕ) : α :=
  trapSum f a ((b - a) / ((n : α) + 1)) n (n + 2) * ((b - a) / ((n : α) + 1))

theorem trapSum_eq (f : ℝ → ℝ) (a dx : ℝ) (n : ℕ) :
    ∀ m : ℕ, trapSum f a dx n m
      = ∑ k in Finset.range m,
          (if k = 0 ∨ k = n then (0.5 : ℝ) else 1) * f (a + (k : ℝ) * dx) := by
  intro m
  induction m with
  | zero => simp [trapSum]
  | succ m ih =>
    rw [trapSum, ih, Finset.sum_range_succ]
    by_cases hm : m = 0 ∨ m = n
    · rw [if_pos hm, if_pos hm]
      norm_num
    · rw [if_neg hm, if_neg hm, one_mul]

/-- Claim C10: for every integrand `f`, bounds `a`, `b` and `n ≥ 0`,
`Quadrature::trapezoidal(f, a, b, n)` returns
`dx * Σ_{k=0}^{n+1} w_k * f(a + k dx)` with `dx = (b-a)/(n+1)`,
`w_k = 0.5` for `k = 0` and `k = n` and `w_k = 1` otherwise; in
particular the final sample (`k = n+1`, the point `b`) receives full
weight `1`. -/
theorem claim_C10 (f : ℝ → ℝ) (a b : ℝ) (n : ℕ) :
    trapezoidal f a b n
      = ((b - a) / ((n : ℝ) + 1)) *
          ∑ k in Finset.range (n + 2),
            (if k = 0 ∨ k = n then (0.5 : ℝ) else 1) *
              f (a + (k : ℝ) * ((b - a) / ((n : ℝ) + 1)))
    ∧ (if n + 1 = 0 ∨ n + 1 = n then (0.5 : ℝ) else 1) = 1 := by
  constructor
  · rw [trapezoidal, trapSum_eq, mul_comm]
  · have h : ¬ (n + 1 = 0 ∨ n + 1 = n) := by omega
    simp [h]

/-- Claim C8: the worker's receive loop exits exactly when some received
value is negative (processing stops at the first such value), and for
every non-negative received value before that, the worker computes the
task function on it and sends exactly one result, in order. -/
theorem claim_C8 (msgs : List ℤ) :
    slaveRun msgs
      = ((msgs.takeWhile (fun x => decide (0 ≤ x))).map func_expensive,
          msgs.any (fun x => decide (x < 0)))
    ∧ ((slaveRun msgs).2 = true ↔ ∃ x ∈ msgs, x < 0) := by
  have key : ∀ l : List ℤ, slaveRun l
      = ((l.takeWhile (fun x => decide (0 ≤ x))).map func_expensive,
          l.any (fun x => decide (x < 0))) := by
    intro l
    induction l with
    | nil => simp [slaveRun]
    | cons x rest ih =>
      by_cases hx : x < 0
      · have h0 : ¬ (0 ≤ x) := by omega
        simp [slaveRun, hx, List.takeWhile_cons, h0]
      · have h0 : 0 ≤ x := by omega
        simp [slaveRun, hx, List.takeWhile_cons, h0, ih]
  refine ⟨key msgs, ?_⟩
  rw [key msgs]
  simp

/-- Claim C9: every element produced by `inputDataGenerator` lies in
`[0, 10]`; in particular it is non-negative, so a worker never mistakes
a task input for the termination sentinel: fed such a value, the worker
computes a result and keeps running. -/
theorem claim_C9 (N : ℕ) (engine : ℕ → ℕ) (x : ℤ)
    (hx : x ∈ inputDataGenerator N engine) :
    0 ≤ x ∧ x ≤ 10 ∧ ¬ x < 0 ∧ slaveRun [x] = ([func_expensive x], false) := by
  rcases List.mem_map.mp hx with ⟨k, _, hk⟩
  have hval : x = ((engine k % 11 : ℕ) : ℤ) := by
    rw [← hk]
    simp [uniform_int_sample]
  have hlt : engine k % 11 < 11 := Nat.mod_lt _ (by omega)
  have h0 : 0 ≤ x := by rw [hval]; exact Int.ofNat_nonneg _
  have h10 : x ≤ 10 := by rw [hval]; exact_mod_cast Nat.lt_succ_iff.mp hlt
  have hneg : ¬ x < 0 := by omega
  refine ⟨h0, h10, hneg, ?_⟩
  simp [slaveRun, hneg]

/-- Witness for C9 at `N = 2`, `engine = id`: the first generated value
is `0` and satisfies the bounds. -/
theorem claim_C9_witness :
    (0 : ℤ) ∈ inputDataGenerator 2 (fun k => k)
    ∧ (0 ≤ (0 : ℤ) ∧ (0 : ℤ) ≤ 10 ∧ ¬ (0 : ℤ) < 0
        ∧ slaveRun [(0 : ℤ)] = ([func_expensive 0], false)) :=
  ⟨by decide, claim_C9 2 (fun k => k) 0 (by decide)⟩

/-- The master's mutable state in `masterCode` (lines 66-114).  The
zero-initialised vectors `proc2inputIdx` and `inputIdx2proc` and the
`output` vector are modelled as total maps (every index the code reads
or writes in a run is covered); `counter` and the active-processor
count are the scalar variables of the source.  `assigns` and `sentTo`
are ghost histories: the `(task index, rank)` dispatch events in order,
and the payloads passed to `MPI_Isend` towards each rank, in order. -/
structure MState where
  counter : ℕ
  proc2inputIdx : ℕ → ℤ
  inputIdx2proc : ℕ → ℤ
  output : ℤ → ℤ
  nActive : ℤ
  assigns : List (ℕ × ℕ)
  sentTo : ℕ → List ℤ

/-- State at the top of `masterCode`: all vectors zero-initialised,
`counter = 0`, nothing sent yet. -/
def initState : MState :=
  { counter := 0
    proc2inputIdx := fun _ => 0
    inputIdx2proc := fun _ => 0
    output := fun _ => 0
    nActive := 0
    assigns := []
    sentTo := fun _ => [] }

/-- One iteration of the startup loop (lines 81-92), for rank `k`:
while `counter < kmax`, send `input[counter]` to `k` and record the
assignment; afterwards send the invalid value `-1` and mark the rank
terminated. -/
def startupStep (input : List ℤ) (kmax : ℕ) (s : MState) (k : ℕ) : MState :=
  if s.counter < kmax then
    { counter := s.counter + 1
      proc2inputIdx := upd s.proc2inputIdx k (s.counter : ℤ)
      inputIdx2proc := upd s.inputIdx2proc s.counter (k : ℤ)
      output := s.output
      nActive := s.nActive
      assigns := s.assigns ++ [(s.counter, k)]
      sentTo := upd s.sentTo k (s.sentTo k ++ [input.getD s.counter 0]) }
  else
    { s with
      proc2inputIdx := upd s.proc2inputIdx k (-1)
      sentTo := upd s.sentTo k (s.sentTo k ++ [-1]) }

/-- The startup loop (lines 81-92) run over ranks `1..j`. -/
def startupFold (input : List ℤ) (kmax j : ℕ) : MState :=
  (List.range' 1 j).foldl (startupStep input kmax) initState

/-- The master's state after the startup phase (lines 80-93): the loop
over ranks `1..size-1` with `kmax = min(size-1, N)`, followed by
`N_activeProc = counter`. -/
def startupState (input : List ℤ) (size : ℕ) : MState :=
  let s := startupFold input (min (size - 1) input.length) (size - 1)
  { s with nActive := (s.counter : ℤ) }

/-- One iteration of the master's receive loop (lines 97-113), given
the received value `y` and its source rank `procNr`: look up the index
the rank was computing, store `y` there, then either send the next
input value (when `counter < input.size()`) or send `-1` and decrement
the active-processor count.  The source performs no validation of
`procNr`: when the stored index is `-1` the write lands at position
`-1` of the idealised output store (out of bounds for the C++ vector)
and dispatch continues. -/
def recvStep (input : List ℤ) (s : MState) (procNr : ℕ) (y : ℤ) : MState :=
  let idx := s.proc2inputIdx procNr
  if s.counter < input.length then
    { counter := s.counter + 1
      proc2inputIdx := upd s.proc2inputIdx procNr (s.counter : ℤ)
      inputIdx2proc := upd s.inputIdx2proc s.counter (procNr : ℤ)
      output := upd s.output idx y
      nActive := s.nActive
      assigns := s.assigns ++ [(s.counter, procNr)]
      sentTo := upd s.sentTo procNr (s.sentTo procNr ++ [input.getD s.counter 0]) }
  else
    { s with
      output := upd s.output idx y
      proc2inputIdx := upd s.proc2inputIdx procNr (-1)
      nActive := s.nActive - 1
      sentTo := upd s.sentTo procNr (s.sentTo procNr ++ [-1]) }

/-- The value rank `p` sends back for its outstanding task: the slave
applies `func_expensive` to the input value it received, which is
`input[proc2inputIdx[p]]`. -/
def echoVal (input : List ℤ) (s : MState) (p : ℕ) : ℤ :=
  func_expensive (input.getD (s.proc2inputIdx p).toNat 0)

/-- The master's receive loop driven by a schedule: the list of source
ranks whose results arrive, in order, each reporting the value its
slave computed. -/
def runSched (input : List ℤ) (s : MState) : List ℕ → MState
  | [] => s
  | p :: rest => runSched input (recvStep input s p (echoVal input s p)) rest

/-- A schedule is consistent with the system's semantics from state
`s`: each receive happens while the loop guard `N_activeProc > 0`
holds, from a genuine slave rank (`1 ≤ p < size`), and only from a rank
holding an outstanding task (a slave sends exactly one result per task
it receives). -/
def ValidSteps (input : List ℤ) (size : ℕ) : MState → List ℕ → Bool
  | _, [] => true
  | s, p :: rest =>
    decide (0 < s.nActive) && decide (0 < p) && decide (p < size)
      && decide (0 ≤ s.proc2inputIdx p)
      && ValidSteps input size (recvStep input s p (echoVal input s p)) rest

/-- A complete run: a consistent schedule after which the `while`
loop's guard `N_activeProc > 0` has become false. -/
def CompleteRun (input : List ℤ) (size : ℕ) (s : MState) (sched : List ℕ) : Bool :=
  ValidSteps input size s sched && decide ((runSched input s sched).nActive ≤ 0)

/-- Number of slave ranks whose `proc2inputIdx` entry is a live task
index (the count of active processors in the master's bookkeeping). -/
def countActive (size : ℕ) (s : MState) : ℕ :=
  ∑ k in Finset.Ioo 0 size, if 0 ≤ s.proc2inputIdx k then 1 else 0

/-- The task indices a dispatch history assigns to rank `k`, in
dispatch order. -/
def assignsTo (l : List (ℕ × ℕ)) (k : ℕ) : List ℕ :=
  (l.filter (fun a => decide (a.2 = k))).map Prod.fst

/-- Modelled from the spec: the receive handling demanded by sections 4.1
and 7 of the specification, which the source does not implement — a
result from a rank whose slot holds the inactive marker (no outstanding
task, or never assigned) is a protocol violation and aborts the run
(`none`) instead of being processed. -/
def recvStepChecked (input : List ℤ) (s : MState) (procNr : ℕ) (y : ℤ) :
    Option MState :=
  if s.proc2inputIdx procNr < 0 then none
  else some (recvStep input s procNr y)

theorem startupFold_succ (input : List ℤ) (kmax j : ℕ) :
    startupFold input kmax (j + 1)
      = startupStep input kmax (startupFold input kmax j) (j + 1) := by
  rw [startupFold, List.range'_1_concat, List.foldl_append, Nat.add_comm 1 j]
  rfl

/-- Characterisation of the startup loop after processing ranks `1..j`:
the counter has advanced to `min j kmax`; rank `k ≤ j` holds task
`k - 1` if `k ≤ kmax` and the inactive marker otherwise; rank `k ≤ j`
has been sent exactly its task input, or exactly the invalid value;
ranks beyond `j` are untouched; the dispatch history pairs task `c`
with rank `c + 1`. -/
theorem startup_aux (input : List ℤ) (kmax : ℕ) : ∀ j : ℕ,
    (startupFold input kmax j).counter = min j kmax
    ∧ (∀ k : ℕ, 0 < k → k ≤ j →
        (k ≤ kmax → (startupFold input kmax j).proc2inputIdx k = ((k - 1 : ℕ) : ℤ))
        ∧ (kmax < k → (startupFold input kmax j).proc2inputIdx k = -1))
    ∧ (∀ k : ℕ, k = 0 ∨ j < k → (startupFold input kmax j).proc2inputIdx k = 0)
    ∧ (∀ k : ℕ, 0 < k → k ≤ j →
        (startupFold input kmax j).sentTo k
          = if k ≤ kmax then [input.getD (k - 1) 0] else [-1])
    ∧ (∀ k : ℕ, k = 0 ∨ j < k → (startupFold input kmax j).sentTo k = [])
    ∧ (startupFold input kmax j).assigns
        = (List.range (min j kmax)).map (fun c => (c, c + 1)) := by
  intro j
  induction j with
  | zero =>
    refine ⟨by simp [startupFold, initState], ?_, ?_, ?_, ?_, ?_⟩
    · intro k hk0 hkj
      omega
    · intro k _
      rfl
    · intro k hk0 hkj
      omega
    · intro k _
      rfl
    · simp [startupFold, initState]
  | succ j ih =>
    obtain ⟨hc, hent, hent0, hsent, hsent0, hass⟩ := ih
    rw [startupFold_succ]
    by_cases hjk : j < kmax
    · have hmin : min j kmax = j := by omega
      have hmin' : min (j + 1) kmax = j + 1 := by omega
      have hcond : (startupFold input kmax j).counter < kmax := by
        rw [hc]; omega
      simp only [startupStep, if_pos hcond]
      refine ⟨?_, ?_, ?_, ?_, ?_, ?_⟩
      · rw [hc]; omega
      · intro k hk0 hkj
        rcases Nat.lt_or_ge k (j + 1) with hk | hk
        · have hne : k ≠ j + 1 := by omega
          constructor
          · intro hkle
            rw [upd_ne _ _ _ hne]
            exact (hent k hk0 (by omega)).1 hkle
          · intro hklt
            rw [upd_ne _ _ _ hne]
            exact (hent k hk0 (by omega)).2 hklt
        · have hkeq : k = j + 1 := by omega
          subst hkeq
          constructor
          · intro _
            rw [upd_self, hc]
            simp [hmin]
          · intro hklt
            omega
      · intro k hk
        have hne : k ≠ j + 1 := by omega
        rw [upd_ne _ _ _ hne]
        exact hent0 k (by omega)
      · intro k hk0 hkj
        rcases Nat.lt_or_ge k (j + 1) with hk | hk
        · have hne : k ≠ j + 1 := by omega
          rw [upd_ne _ _ _ hne]
          exact hsent k hk0 (by omega)
        · have hkeq : k = j + 1 := by omega
          subst hkeq
          rw [upd_self, hsent0 _ (by omega), hc]
          have : j + 1 ≤ kmax := by omega
          simp [this, hmin]
      · intro k hk
        have hne : k ≠ j + 1 := by omega
        rw [upd_ne _ _ _ hne]
        exact hsent0 k (by omega)
      · rw [hass, hc, hmin, hmin', List.range_succ, List.map_append]
        simp
    · have hmin : min j kmax = kmax := by omega
      have hmin' : min (j + 1) kmax = kmax := by omega
      have hcond : ¬ (startupFold input kmax j).counter < kmax := by
        rw [hc]; omega
      simp only [startupStep, if_neg hcond]
      refine ⟨?_, ?_, ?_, ?_, ?_, ?_⟩
      · rw [hc]; omega
      · intro k hk0 hkj
        rcases Nat.lt_or_ge k (j + 1) with hk | hk
        · have hne : k ≠ j + 1 := by omega
          constructor
          · intro hkle
            rw [upd_ne _ _ _ hne]
            exact (hent k hk0 (by omega)).1 hkle
          · intro hklt
            rw [upd_ne _ _ _ hne]
            exact (hent k hk0 (by omega)).2 hklt
        · have hkeq : k = j + 1 := by omega
          subst hkeq
          constructor
          · intro hkle
            omega
          · intro _
            rw [upd_self]
      · intro k hk
        have hne : k ≠ j + 1 := by omega
        rw [upd_ne _ _ _ hne]
        exact hent0 k (by omega)
      · intro k hk0 hkj
        rcases Nat.lt_or_ge k (j + 1) with hk | hk
        · have hne : k ≠ j + 1 := by omega
          rw [upd_ne _ _ _ hne]
          exact hsent k hk0 (by omega)
        · have hkeq : k = j + 1 := by omega
          subst hkeq
          rw [upd_self, hsent0 _ (by omega)]
          have : ¬ j + 1 ≤ kmax := by omega
          simp [this]
      · intro k hk
        have hne : k ≠ j + 1 := by omega
        rw [upd_ne _ _ _ hne]
        exact hsent0 k (by omega)
      · rw [hass, hmin, hmin']

/-- The master's bookkeeping invariant, maintained from the end of the
startup phase through every iteration of the receive loop:

* the dispatch cursor never exceeds the input length, and while tasks
  remain some processor is active;
* `N_activeProc` equals the number of slave ranks holding a live task;
* each slave slot holds the inactive marker or an already-dispatched
  task index, and no two slaves hold the same task;
* the dispatch history covers exactly the task indices `0..counter-1`,
  in order, each aimed at a genuine slave rank;
* the messages sent to a rank are exactly the inputs of its assigned
  tasks, in order, followed by the invalid value once it is inactive;
* the output store holds the task function's value for every
  dispatched task that is no longer outstanding. -/
structure MInv (input : List ℤ) (size : ℕ) (s : MState) : Prop where
  hsize : 2 ≤ size
  counter_le : s.counter ≤ input.length
  active_count : s.nActive = (countActive size s : ℤ)
  active_pos : s.counter < input.length → 0 < countActive size s
  entries : ∀ k : ℕ, 0 < k → k < size →
    s.proc2inputIdx k = -1
      ∨ (0 ≤ s.proc2inputIdx k ∧ s.proc2inputIdx k < (s.counter : ℤ))
  inj : ∀ k k' : ℕ, 0 < k → k < size → 0 < k' → k' < size →
    0 ≤ s.proc2inputIdx k → s.proc2inputIdx k = s.proc2inputIdx k' → k = k'
  assigns_fst : s.assigns.map Prod.fst = List.range s.counter
  assigns_snd : ∀ a ∈ s.assigns, 0 < a.2 ∧ a.2 < size
  sent_char : ∀ k : ℕ, 0 < k → k < size →
    s.sentTo k = (assignsTo s.assigns k).map (fun i => input.getD i 0)
      ++ (if s.proc2inputIdx k = -1 then [-1] else [])
  output_done : ∀ i : ℕ, i < s.counter →
    (∀ k : ℕ, 0 < k → k < size → s.proc2inputIdx k ≠ (i : ℤ)) →
    s.output (i : ℤ) = func_cheap (input.getD i 0)

/-- Updating one slave slot changes the active count by the difference
of the indicators at that slot. -/
theorem sum_indicator_upd (size p : ℕ) (f : ℕ → ℤ) (v : ℤ)
    (hp0 : 0 < p) (hps : p < size) :
    (∑ k in Finset.Ioo 0 size, if 0 ≤ upd f p v k then (1 : ℕ) else 0)
        + (if 0 ≤ f p then (1 : ℕ) else 0)
      = (∑ k in Finset.Ioo 0 size, if 0 ≤ f k then (1 : ℕ) else 0)
        + (if 0 ≤ v then (1 : ℕ) else 0) := by
  have hp : p ∈ Finset.Ioo 0 size := Finset.mem_Ioo.mpr ⟨hp0, hps⟩
  have h1 : (∑ k in Finset.Ioo 0 size, if 0 ≤ upd f p v k then (1 : ℕ) else 0)
      = (if 0 ≤ v then (1 : ℕ) else 0)
        + ∑ k in (Finset.Ioo 0 size).erase p, (if 0 ≤ f k then (1 : ℕ) else 0) := by
    rw [← Finset.add_sum_erase _ (fun k => if 0 ≤ upd f p v k then (1 : ℕ) else 0) hp,
      upd_self]
    congr 1
    refine Finset.sum_congr rfl ?_
    intro k hk
    rw [upd_ne _ _ _ (Finset.ne_of_mem_erase hk)]
  have h2 : (∑ k in Finset.Ioo 0 size, if 0 ≤ f k then (1 : ℕ) else 0)
      = (if 0 ≤ f p then (1 : ℕ) else 0)
        + ∑ k in (Finset.Ioo 0 size).erase p, (if 0 ≤ f k then (1 : ℕ) else 0) :=
    (Finset.add_sum_erase _ _ hp).symm
  rw [h1, h2]
  ring

/-- Filtering the startup dispatch history for rank `k` leaves exactly
the pair for task `k - 1`, when that task exists. -/
theorem filter_range_pairs (m k : ℕ) :
    ((List.range m).map (fun c => (c, c + 1))).filter (fun a => decide (a.2 = k))
      = if 0 < k ∧ k - 1 < m then [(k - 1, k)] else [] := by
  induction m with
  | zero => simp
  | succ m ih =>
    rw [List.range_succ, List.map_append, List.filter_append, ih]
    by_cases hmk : m + 1 = k
    · subst hmk
      have hfalse : ¬ (0 < m + 1 ∧ m + 1 - 1 < m) := by omega
      have htrue : 0 < m + 1 ∧ m + 1 - 1 < m + 1 := by omega
      rw [if_neg hfalse, if_pos htrue]
      simp
    · have hiff : (0 < k ∧ k - 1 < m + 1) ↔ (0 < k ∧ k - 1 < m) := by omega
      simp only [hiff]
      simp [hmk]

/-- The state at the end of the startup phase, read off `startup_aux`
at `j = size - 1`. -/
theorem startupState_spec (input : List ℤ) (size : ℕ) (h2 : 2 ≤ size) :
    (startupState input size).counter = min (size - 1) input.length
    ∧ (startupState input size).nActive = ((min (size - 1) input.length : ℕ) : ℤ)
    ∧ (∀ k : ℕ, 0 < k → k < size →
        (k ≤ min (size - 1) input.length →
          (startupState input size).proc2inputIdx k = ((k - 1 : ℕ) : ℤ))
        ∧ (min (size - 1) input.length < k →
          (startupState input size).proc2inputIdx k = -1))
    ∧ (∀ k : ℕ, 0 < k → k < size →
        (startupState input size).sentTo k
          = if k ≤ min (size - 1) input.length
            then [input.getD (k - 1) 0] else [-1])
    ∧ (startupState input size).assigns
        = (List.range (min (size - 1) input.length)).map (fun c => (c, c + 1)) := by
  obtain ⟨hc, hent, _, hsent, _, hass⟩ :=
    startup_aux input (min (size - 1) input.length) (size - 1)
  have hmm : min (size - 1) (min (size - 1) input.length)
      = min (size - 1) input.length := by omega
  have hcounter : (startupState input size).counter = min (size - 1) input.length := by
    show (startupFold input (min (size - 1) input.length) (size - 1)).counter
      = min (size - 1) input.length
    rw [hc, hmm]
  refine ⟨hcounter, ?_, ?_, ?_, ?_⟩
  · show ((startupFold input (min (size - 1) input.length) (size - 1)).counter : ℤ)
      = ((min (size - 1) input.length : ℕ) : ℤ)
    rw [hc, hmm]
  · intro k hk0 hks
    exact hent k hk0 (by omega)
  · intro k hk0 hks
    exact hsent k hk0 (by omega)
  · show (startupFold input (min (size - 1) input.length) (size - 1)).assigns = _
    rw [hass, hmm]

/-- The startup phase establishes the master's invariant. -/
theorem startup_MInv (input : List ℤ) (size : ℕ) (h2 : 2 ≤ size) :
    MInv input size (startupState input size) := by
  obtain ⟨hc, hn, hent, hsent, hass⟩ := startupState_spec input size h2
  have hkmax1 : min (size - 1) input.length ≤ size - 1 := by omega
  have hkmax2 : min (size - 1) input.length ≤ input.length := by omega
  have hcount : countActive size (startupState input size)
      = min (size - 1) input.length := by
    have hcongr : ∀ k ∈ Finset.Ioo 0 size,
        (if 0 ≤ (startupState input size).proc2inputIdx k then (1 : ℕ) else 0)
          = (if k ≤ min (size - 1) input.length then (1 : ℕ) else 0) := by
      intro k hk
      rw [Finset.mem_Ioo] at hk
      by_cases hkle : k ≤ min (size - 1) input.length
      · rw [(hent k hk.1 hk.2).1 hkle, if_pos hkle, if_pos (by positivity)]
      · rw [(hent k hk.1 hk.2).2 (by omega), if_neg hkle, if_neg (by omega)]
    rw [countActive, Finset.sum_congr rfl hcongr, Finset.sum_boole]
    have hset : (Finset.Ioo 0 size).filter (fun k => k ≤ min (size - 1) input.length)
        = Finset.Icc 1 (min (size - 1) input.length) := by
      ext k
      simp only [Finset.mem_filter, Finset.mem_Ioo, Finset.mem_Icc]
      omega
    rw [hset]
    simp [Nat.card_Icc]
  refine ⟨h2, by omega, ?_, ?_, ?_, ?_, ?_, ?_, ?_, ?_⟩
  · rw [hn, hcount]
  · intro hlt
    rw [hcount, hc] at *
    omega
  · intro k hk0 hks
    by_cases hkle : k ≤ min (size - 1) input.length
    · right
      rw [(hent k hk0 hks).1 hkle, hc]
      constructor
      · positivity
      · exact_mod_cast by omega
    · left
      exact (hent k hk0 hks).2 (by omega)
  · intro k k' hk0 hks hk0' hks' hpos heq
    by_cases hkle : k ≤ min (size - 1) input.length
    · by_cases hkle' : k' ≤ min (size - 1) input.length
      · rw [(hent k hk0 hks).1 hkle, (hent k' hk0' hks').1 hkle'] at heq
        have : (k - 1 : ℕ) = (k' - 1 : ℕ) := by exact_mod_cast heq
        omega
      · rw [(hent k hk0 hks).1 hkle, (hent k' hk0' hks').2 (by omega)] at heq
        omega
    · rw [(hent k hk0 hks).2 (by omega)] at hpos
      omega
  · rw [hass, hc, List.map_map]
    have hcomp : (Prod.fst ∘ fun c : ℕ => (c, c + 1)) = fun c => c := rfl
    rw [hcomp, List.map_id']
  · intro a ha
    rw [hass] at ha
    rcases List.mem_map.mp ha with ⟨c, hc', hca⟩
    rw [List.mem_range] at hc'
    rw [← hca]
    constructor
    · omega
    · show c + 1 < size
      omega
  · intro k hk0 hks
    rw [hsent k hk0 hks, assignsTo, hass, filter_range_pairs]
    by_cases hkle : k ≤ min (size - 1) input.length
    · have h1 : 0 < k ∧ k - 1 < min (size - 1) input.length := by omega
      have hne : (startupState input size).proc2inputIdx k ≠ -1 := by
        rw [(hent k hk0 hks).1 hkle]
        omega
      rw [if_pos hkle, if_pos h1, if_neg hne]
      simp
    · have h1 : ¬ (0 < k ∧ k - 1 < min (size - 1) input.length) := by omega
      have heq : (startupState input size).proc2inputIdx k = -1 :=
        (hent k hk0 hks).2 (by omega)
      rw [if_neg hkle, if_neg h1, if_pos heq]
      simp
  · intro i hi hall
    exfalso
    rw [hc] at hi
    refine hall (i + 1) (by omega) (by omega) ?_
    rw [(hent (i + 1) (by omega) (by omega)).1 (by omega)]
    simp

theorem assignsTo_append (l1 l2 : List (ℕ × ℕ)) (k : ℕ) :
    assignsTo (l1 ++ l2) k = assignsTo l1 k ++ assignsTo l2 k := by
  rw [assignsTo, assignsTo, assignsTo, List.filter_append, List.map_append]

theorem assignsTo_single_self (c k : ℕ) : assignsTo [(c, k)] k = [c] := by
  simp [assignsTo]

theorem assignsTo_single_ne (c q k : ℕ) (h : q ≠ k) : assignsTo [(c, q)] k = [] := by
  simp [assignsTo, h]

/-- Shape of a receive-loop iteration while tasks remain
(`counter < input.size()`): record the value, assign task `counter` to
the sender. -/
theorem recvStep_assign (input : List ℤ) (s : MState) (p : ℕ) (y : ℤ)
    (h : s.counter < input.length) :
    recvStep input s p y =
      { counter := s.counter + 1
        proc2inputIdx := upd s.proc2inputIdx p (s.counter : ℤ)
        inputIdx2proc := upd s.inputIdx2proc s.counter (p : ℤ)
        output := upd s.output (s.proc2inputIdx p) y
        nActive := s.nActive
        assigns := s.assigns ++ [(s.counter, p)]
        sentTo := upd s.sentTo p (s.sentTo p ++ [input.getD s.counter 0]) } := by
  simp only [recvStep]
  rw [if_pos h]

/-- Shape of a receive-loop iteration once all tasks are dispatched:
record the value, send the invalid value to the sender and decrement
the active-processor count. -/
theorem recvStep_term (input : List ℤ) (s : MState) (p : ℕ) (y : ℤ)
    (h : ¬ s.counter < input.length) :
    recvStep input s p y =
      { s with
        output := upd s.output (s.proc2inputIdx p) y
        proc2inputIdx := upd s.proc2inputIdx p (-1)
        nActive := s.nActive - 1
        sentTo := upd s.sentTo p (s.sentTo p ++ [-1]) } := by
  simp only [recvStep]
  rw [if_neg h]

/-- Each receive-loop iteration on a live sender either advances the
cursor with the active count unchanged, or keeps the cursor (already at
`N`) and retires exactly one processor. -/
theorem recvStep_measure (input : List ℤ) (size : ℕ) (s : MState) (p : ℕ) (y : ℤ)
    (hs : MInv input size s) (hp0 : 0 < p) (hps : p < size)
    (hpe : 0 ≤ s.proc2inputIdx p) :
    (s.counter < input.length ∧ (recvStep input s p y).counter = s.counter + 1
      ∧ countActive size (recvStep input s p y) = countActive size s)
    ∨ (s.counter = input.length ∧ (recvStep input s p y).counter = s.counter
      ∧ countActive size (recvStep input s p y) + 1 = countActive size s) := by
  by_cases hcase : s.counter < input.length
  · left
    rw [recvStep_assign input s p y hcase]
    refine ⟨hcase, rfl, ?_⟩
    have h1 := sum_indicator_upd size p s.proc2inputIdx (s.counter : ℤ) hp0 hps
    rw [if_pos hpe, if_pos (Int.ofNat_nonneg s.counter)] at h1
    show (∑ k in Finset.Ioo 0 size,
      if 0 ≤ upd s.proc2inputIdx p (s.counter : ℤ) k then (1 : ℕ) else 0) = _
    rw [countActive]
    omega
  · right
    rw [recvStep_term input s p y hcase]
    refine ⟨by have := hs.counter_le; omega, rfl, ?_⟩
    have h1 := sum_indicator_upd size p s.proc2inputIdx (-1) hp0 hps
    rw [if_pos hpe, if_neg (by omega : ¬ (0 : ℤ) ≤ -1)] at h1
    show (∑ k in Finset.Ioo 0 size,
      if 0 ≤ upd s.proc2inputIdx p (-1) k then (1 : ℕ) else 0) + 1 = _
    rw [countActive]
    omega

/-- A receive-loop iteration on a live sender preserves the master's
invariant (the received value being the sender's computed result). -/
theorem recvStep_MInv (input : List ℤ) (size : ℕ) (s : MState) (p : ℕ)
    (hs : MInv input size s) (hp0 : 0 < p) (hps : p < size)
    (hpe : 0 ≤ s.proc2inputIdx p) :
    MInv input size (recvStep input s p (echoVal input s p)) := by
  have hidx : s.proc2inputIdx p < (s.counter : ℤ) := by
    rcases hs.entries p hp0 hps with h | h
    · omega
    · exact h.2
  by_cases hcase : s.counter < input.length
  · rw [recvStep_assign input s p _ hcase]
    have hcnt : (∑ k in Finset.Ioo 0 size,
        if 0 ≤ upd s.proc2inputIdx p (s.counter : ℤ) k then (1 : ℕ) else 0)
        = countActive size s := by
      have h1 := sum_indicator_upd size p s.proc2inputIdx (s.counter : ℤ) hp0 hps
      rw [if_pos hpe, if_pos (Int.ofNat_nonneg s.counter)] at h1
      rw [countActive]
      omega
    refine ⟨hs.hsize, ?_, ?_, ?_, ?_, ?_, ?_, ?_, ?_, ?_⟩
    · show s.counter + 1 ≤ input.length
      omega
    · show s.nActive = ((∑ k in Finset.Ioo 0 size,
        if 0 ≤ upd s.proc2inputIdx p (s.counter : ℤ) k then (1 : ℕ) else 0 : ℕ) : ℤ)
      rw [hcnt]
      exact hs.active_count
    · intro hlt
      show 0 < (∑ k in Finset.Ioo 0 size,
        if 0 ≤ upd s.proc2inputIdx p (s.counter : ℤ) k then (1 : ℕ) else 0)
      rw [hcnt]
      exact hs.active_pos hcase
    · intro k hk0 hks
      show upd s.proc2inputIdx p (s.counter : ℤ) k = -1
        ∨ (0 ≤ upd s.proc2inputIdx p (s.counter : ℤ) k
            ∧ upd s.proc2inputIdx p (s.counter : ℤ) k < ((s.counter + 1 : ℕ) : ℤ))
      by_cases hkp : k = p
      · subst hkp
        rw [upd_self]
        right
        constructor
        · exact Int.ofNat_nonneg s.counter
        · push_cast
          omega
      · rw [upd_ne _ _ _ hkp]
        rcases hs.entries k hk0 hks with h | h
        · left
          exact h
        · right
          refine ⟨h.1, ?_⟩
          have := h.2
          push_cast
          omega
    · intro k k' hk0 hks hk0' hks' hknn heq
      simp only at hknn heq
      by_cases hkp : k = p
      · by_cases hkp' : k' = p
        · rw [hkp, hkp']
        · exfalso
          rw [hkp, upd_self, upd_ne _ _ _ hkp'] at heq
          rcases hs.entries k' hk0' hks' with h | h
          · omega
          · omega
      · by_cases hkp' : k' = p
        · exfalso
          rw [upd_ne _ _ _ hkp, hkp', upd_self] at heq
          rw [upd_ne _ _ _ hkp] at hknn
          rcases hs.entries k hk0 hks with h | h
          · omega
          · omega
        · rw [upd_ne _ _ _ hkp, upd_ne _ _ _ hkp'] at heq
          rw [upd_ne _ _ _ hkp] at hknn
          exact hs.inj k k' hk0 hks hk0' hks' hknn heq
    · show (s.assigns ++ [(s.counter, p)]).map Prod.fst = List.range (s.counter + 1)
      rw [List.map_append, hs.assigns_fst, List.range_succ]
      rfl
    · intro a ha
      rcases List.mem_append.mp ha with h | h
      · exact hs.assigns_snd a h
      · rw [List.mem_singleton] at h
        rw [h]
        exact ⟨hp0, hps⟩
    · intro k hk0 hks
      show upd s.sentTo p (s.sentTo p ++ [input.getD s.counter 0]) k
        = (assignsTo (s.assigns ++ [(s.counter, p)]) k).map (fun i => input.getD i 0)
          ++ (if upd s.proc2inputIdx p (s.counter : ℤ) k = -1 then [-1] else [])
      by_cases hkp : k = p
      · subst hkp
        rw [upd_self, upd_self, assignsTo_append, assignsTo_single_self,
          hs.sent_char k hk0 hks, if_neg (by omega : ¬ s.proc2inputIdx k = -1),
          if_neg (by omega : ¬ ((s.counter : ℤ) = -1)), List.map_append]
        simp
      · rw [upd_ne _ _ _ hkp, upd_ne _ _ _ hkp, assignsTo_append,
          assignsTo_single_ne _ _ _ (Ne.symm hkp), List.append_nil]
        exact hs.sent_char k hk0 hks
    · intro i hi hyp
      simp only at hi hyp ⊢
      by_cases hie : (i : ℤ) = s.proc2inputIdx p
      · rw [hie, upd_self]
        show func_expensive (input.getD (s.proc2inputIdx p).toNat 0)
          = func_cheap (input.getD i 0)
        rw [func_expensive]
        have : (s.proc2inputIdx p).toNat = i := by omega
        rw [this]
      · rw [upd_ne _ _ _ hie]
        have hi' : i < s.counter := by
          rcases Nat.lt_or_ge i s.counter with h | h
          · exact h
          · exfalso
            have hieq : i = s.counter := by omega
            refine hyp p hp0 hps ?_
            rw [upd_self, hieq]
        apply hs.output_done i hi'
        intro k hk0 hks
        by_cases hkp : k = p
        · subst hkp
          omega
        · have := hyp k hk0 hks
          rw [upd_ne _ _ _ hkp] at this
          exact this
  · rw [recvStep_term input s p _ hcase]
    have hceq : s.counter = input.length := by
      have := hs.counter_le
      omega
    have hcnt : (∑ k in Finset.Ioo 0 size,
        if 0 ≤ upd s.proc2inputIdx p (-1) k then (1 : ℕ) else 0) + 1
        = countActive size s := by
      have h1 := sum_indicator_upd size p s.proc2inputIdx (-1) hp0 hps
      rw [if_pos hpe, if_neg (by omega : ¬ (0 : ℤ) ≤ -1)] at h1
      rw [countActive]
      omega
    refine ⟨hs.hsize, hs.counter_le, ?_, ?_, ?_, ?_, hs.assigns_fst, hs.assigns_snd, ?_, ?_⟩
    · show s.nActive - 1 = ((∑ k in Finset.Ioo 0 size,
        if 0 ≤ upd s.proc2inputIdx p (-1) k then (1 : ℕ) else 0 : ℕ) : ℤ)
      have := hs.active_count
      omega
    · intro hlt
      exact absurd hlt hcase
    · intro k hk0 hks
      show upd s.proc2inputIdx p (-1) k = -1
        ∨ (0 ≤ upd s.proc2inputIdx p (-1) k
            ∧ upd s.proc2inputIdx p (-1) k < (s.counter : ℤ))
      by_cases hkp : k = p
      · subst hkp
        rw [upd_self]
        left
        rfl
      · rw [upd_ne _ _ _ hkp]
        exact hs.entries k hk0 hks
    · intro k k' hk0 hks hk0' hks' hknn heq
      simp only at hknn heq
      by_cases hkp : k = p
      · exfalso
        rw [hkp, upd_self] at hknn
        omega
      · by_cases hkp' : k' = p
        · exfalso
          rw [upd_ne _ _ _ hkp, hkp', upd_self] at heq
          rw [upd_ne _ _ _ hkp] at hknn
          omega
        · rw [upd_ne _ _ _ hkp, upd_ne _ _ _ hkp'] at heq
          rw [upd_ne _ _ _ hkp] at hknn
          exact hs.inj k k' hk0 hks hk0' hks' hknn heq
    · intro k hk0 hks
      show upd s.sentTo p (s.sentTo p ++ [-1]) k
        = (assignsTo s.assigns k).map (fun i => input.getD i 0)
          ++ (if upd s.proc2inputIdx p (-1) k = -1 then [-1] else [])
      by_cases hkp : k = p
      · subst hkp
        rw [upd_self, upd_self, hs.sent_char k hk0 hks,
          if_neg (by omega : ¬ s.proc2inputIdx k = -1), if_pos rfl]
        simp
      · rw [upd_ne _ _ _ hkp, upd_ne _ _ _ hkp]
        exact hs.sent_char k hk0 hks
    · intro i hi hyp
      simp only at hi hyp ⊢
      by_cases hie : (i : ℤ) = s.proc2inputIdx p
      · rw [hie, upd_self]
        show func_expensive (input.getD (s.proc2inputIdx p).toNat 0)
          = func_cheap (input.getD i 0)
        rw [func_expensive]
        have : (s.proc2inputIdx p).toNat = i := by omega
        rw [this]
      · rw [upd_ne _ _ _ hie]
        apply hs.output_done i hi
        intro k hk0 hks
        by_cases hkp : k = p
        · subst hkp
          omega
        · have := hyp k hk0 hks
          rw [upd_ne _ _ _ hkp] at this
          exact this

/-- The master's invariant holds after any consistent sequence of
receive-loop iterations. -/
theorem validSteps_MInv (input : List ℤ) (size : ℕ) :
    ∀ (sched : List ℕ) (s : MState),
      ValidSteps input size s sched = true → MInv input size s →
      MInv input size (runSched input s sched) := by
  intro sched
  induction sched with
  | nil =>
    intro s _ hs
    exact hs
  | cons p rest ih =>
    intro s hv hs
    simp only [ValidSteps, Bool.and_eq_true, decide_eq_true_eq] at hv
    obtain ⟨⟨⟨⟨hact, hp0⟩, hps⟩, hpe⟩, hrest⟩ := hv
    exact ih _ hrest (recvStep_MInv input size s p hs hp0 hps hpe)

/-- A consistent schedule that ends with the loop guard false has
exactly `(N - counter) + countActive` receives: the loop measure
decreases by one per receive and is zero exactly at exit. -/
theorem completes_length (input : List ℤ) (size : ℕ) :
    ∀ (sched : List ℕ) (s : MState),
      ValidSteps input size s sched = true → MInv input size s →
      (runSched input s sched).nActive ≤ 0 →
      sched.length = (input.length - s.counter) + countActive size s := by
  intro sched
  induction sched with
  | nil =>
    intro s _ hs hend
    have h1 : s.nActive ≤ 0 := hend
    have h2 := hs.active_count
    have h3 : countActive size s = 0 := by omega
    have h4 : ¬ s.counter < input.length := fun hlt => by
      have := hs.active_pos hlt
      omega
    have h5 := hs.counter_le
    simp only [List.length_nil]
    omega
  | cons p rest ih =>
    intro s hv hs hend
    simp only [ValidSteps, Bool.and_eq_true, decide_eq_true_eq] at hv
    obtain ⟨⟨⟨⟨hact, hp0⟩, hps⟩, hpe⟩, hrest⟩ := hv
    have hstep := recvStep_MInv input size s p hs hp0 hps hpe
    have hih := ih _ hrest hstep hend
    rcases recvStep_measure input size s p (echoVal input s p) hs hp0 hps hpe with
      ⟨h1, h2, h3⟩ | ⟨h1, h2, h3⟩
    · simp only [List.length_cons]
      rw [hih, h2, h3]
      omega
    · simp only [List.length_cons]
      rw [hih, h2, ← h3]
      omega

/-- Any consistent sequence of receive-loop iterations is bounded by
the loop measure: the receive loop cannot run forever. -/
theorem validSteps_length_le (input : List ℤ) (size : ℕ) :
    ∀ (sched : List ℕ) (s : MState),
      ValidSteps input size s sched = true → MInv input size s →
      sched.length ≤ (input.length - s.counter) + countActive size s := by
  intro sched
  induction sched with
  | nil =>
    intro s _ _
    simp
  | cons p rest ih =>
    intro s hv hs
    simp only [ValidSteps, Bool.and_eq_true, decide_eq_true_eq] at hv
    obtain ⟨⟨⟨⟨hact, hp0⟩, hps⟩, hpe⟩, hrest⟩ := hv
    have hstep := recvStep_MInv input size s p hs hp0 hps hpe
    have hih := ih _ hrest hstep
    rcases recvStep_measure input size s p (echoVal input s p) hs hp0 hps hpe with
      ⟨h1, h2, h3⟩ | ⟨h1, h2, h3⟩
    · simp only [List.length_cons]
      rw [h2, h3] at hih
      omega
    · simp only [List.length_cons]
      rw [h2] at hih
      omega

/-- Once the cursor has reached the input length, no further receive
dispatches a task: the dispatch history is frozen. -/
theorem runSched_frozen (input : List ℤ) (size : ℕ) :
    ∀ (sched : List ℕ) (s : MState),
      ValidSteps input size s sched = true → MInv input size s →
      s.counter = input.length →
      (runSched input s sched).assigns = s.assigns := by
  intro sched
  induction sched with
  | nil =>
    intro s _ _ _
    rfl
  | cons p rest ih =>
    intro s hv hs hc
    simp only [ValidSteps, Bool.and_eq_true, decide_eq_true_eq] at hv
    obtain ⟨⟨⟨⟨hact, hp0⟩, hps⟩, hpe⟩, hrest⟩ := hv
    have hncase : ¬ s.counter < input.length := by omega
    have hstep := recvStep_MInv input size s p hs hp0 hps hpe
    have hc' : (recvStep input s p (echoVal input s p)).counter = input.length := by
      rw [recvStep_term input s p _ hncase]
      exact hc
    have hfroz := ih _ hrest hstep hc'
    have : runSched input s (p :: rest)
        = runSched input (recvStep input s p (echoVal input s p)) rest := rfl
    rw [this, hfroz, recvStep_term input s p _ hncase]

/-- At loop exit every task has been dispatched, the active count is
exactly zero, and every slave slot holds the inactive marker. -/
theorem final_state_all_done (input : List ℤ) (size : ℕ) (t : MState)
    (ht : MInv input size t) (hend : t.nActive ≤ 0) :
    t.counter = input.length ∧ t.nActive = 0 ∧ countActive size t = 0
    ∧ ∀ k : ℕ, 0 < k → k < size → t.proc2inputIdx k = -1 := by
  have h2 := ht.active_count
  have h3 : countActive size t = 0 := by omega
  have h4 : t.counter = input.length := by
    rcases Nat.lt_or_ge t.counter input.length with h | h
    · have := ht.active_pos h
      omega
    · have := ht.counter_le
      omega
  refine ⟨h4, by omega, h3, ?_⟩
  intro k hk0 hks
  have hmem : k ∈ Finset.Ioo 0 size := Finset.mem_Ioo.mpr ⟨hk0, hks⟩
  have h3' : (∑ k in Finset.Ioo 0 size,
      if 0 ≤ t.proc2inputIdx k then (1 : ℕ) else 0) = 0 := h3
  have hzero := Finset.sum_eq_zero_iff.mp h3' k hmem
  rcases ht.entries k hk0 hks with h | h
  · exact h
  · exfalso
    rw [if_pos h.1] at hzero
    omega

/-- Claim C1: over a complete run of `masterCode` with `N ≥ 0` tasks
and `W = size - 1 ≥ 1` workers, every task index in `[0, N)` is
dispatched exactly once, in index order (the dispatch history's task
components are exactly `0, 1, ..., N-1` in order); `min(W, N)` tasks
are handed out at startup, and the remaining receives (one per
received result) hand out the rest. -/
theorem claim_C1 (input : List ℤ) (size : ℕ) (sched : List ℕ)
    (h2 : 2 ≤ size)
    (hrun : CompleteRun input size (startupState input size) sched = true) :
    (runSched input (startupState input size) sched).assigns.map Prod.fst
        = List.range input.length
    ∧ (startupState input size).assigns.map Prod.fst
        = List.range (min (size - 1) input.length)
    ∧ sched.length = input.length := by
  rw [CompleteRun, Bool.and_eq_true, decide_eq_true_eq] at hrun
  obtain ⟨hv, hend⟩ := hrun
  have hs0 := startup_MInv input size h2
  have hT := validSteps_MInv input size sched _ hv hs0
  obtain ⟨hcfin, _, _, _⟩ := final_state_all_done input size _ hT hend
  obtain ⟨hc0, hn0, _, _, hass0⟩ := startupState_spec input size h2
  have hcount0 : countActive size (startupState input size)
      = min (size - 1) input.length := by
    have := hs0.active_count
    rw [hn0] at this
    omega
  refine ⟨?_, ?_, ?_⟩
  · rw [hT.assigns_fst, hcfin]
  · rw [hass0, List.map_map]
    have hcomp : (Prod.fst ∘ fun c : ℕ => (c, c + 1)) = fun c => c := rfl
    rw [hcomp, List.map_id']
  · have hlen := completes_length input size sched _ hv hs0 hend
    rw [hc0, hcount0] at hlen
    omega

/-- Witness for C1: the complete run of `N = 3` tasks on `W = 2`
workers with arrival order `1, 2, 1`. -/
theorem claim_C1_witness :
    (2 ≤ 3
      ∧ CompleteRun [5, 7, 2] 3 (startupState [5, 7, 2] 3) [1, 2, 1] = true)
    ∧ ((runSched [5, 7, 2] (startupState [5, 7, 2] 3) [1, 2, 1]).assigns.map Prod.fst
        = List.range ([5, 7, 2] : List ℤ).length
      ∧ (startupState [5, 7, 2] 3).assigns.map Prod.fst
        = List.range (min (3 - 1) ([5, 7, 2] : List ℤ).length)
      ∧ ([1, 2, 1] : List ℕ).length = ([5, 7, 2] : List ℤ).length) :=
  ⟨⟨by omega, by decide⟩, claim_C1 [5, 7, 2] 3 [1, 2, 1] (by omega) (by decide)⟩

/-- Claim C3: over a complete run with finite `N` and `W ≥ 1`, the
receive loop performs exactly `N` result-receives and `N_activeProc`
is `0` when it exits; moreover no consistent sequence of receives can
exceed `N` iterations, so the loop always terminates. -/
theorem claim_C3 (input : List ℤ) (size : ℕ) (sched : List ℕ)
    (h2 : 2 ≤ size)
    (hrun : CompleteRun input size (startupState input size) sched = true) :
    sched.length = input.length
    ∧ (runSched input (startupState input size) sched).nActive = 0
    ∧ (∀ sched' : List ℕ,
        ValidSteps input size (startupState input size) sched' = true →
        sched'.length ≤ input.length) := by
  rw [CompleteRun, Bool.and_eq_true, decide_eq_true_eq] at hrun
  obtain ⟨hv, hend⟩ := hrun
  have hs0 := startup_MInv input size h2
  have hT := validSteps_MInv input size sched _ hv hs0
  obtain ⟨_, hz, _, _⟩ := final_state_all_done input size _ hT hend
  obtain ⟨hc0, hn0, _, _, _⟩ := startupState_spec input size h2
  have hcount0 : countActive size (startupState input size)
      = min (size - 1) input.length := by
    have := hs0.active_count
    rw [hn0] at this
    omega
  refine ⟨?_, hz, ?_⟩
  · have hlen := completes_length input size sched _ hv hs0 hend
    rw [hc0, hcount0] at hlen
    omega
  · intro sched' hv'
    have hle := validSteps_length_le input size sched' _ hv' hs0
    rw [hc0, hcount0] at hle
    omega

/-- Witness for C3: the same complete run as for C1. -/
theorem claim_C3_witness :
    (2 ≤ 3
      ∧ CompleteRun [5, 7, 2] 3 (startupState [5, 7, 2] 3) [1, 2, 1] = true)
    ∧ (([1, 2, 1] : List ℕ).length = ([5, 7, 2] : List ℤ).length
      ∧ (runSched [5, 7, 2] (startupState [5, 7, 2] 3) [1, 2, 1]).nActive = 0
      ∧ (∀ sched' : List ℕ,
          ValidSteps [5, 7, 2] 3 (startupState [5, 7, 2] 3) sched' = true →
          sched'.length ≤ ([5, 7, 2] : List ℤ).length)) :=
  ⟨⟨by omega, by decide⟩, claim_C3 [5, 7, 2] 3 [1, 2, 1] (by omega) (by decide)⟩

/-- Claim C4: in every complete run and for every arrival order, the
output value for the task of index `i` ends at position `i` of the
output store (it equals the task function applied to input `i`), and
each received value is recorded at the index the master remembered for
the sending rank. -/
theorem claim_C4 (input : List ℤ) (size : ℕ) (sched : List ℕ)
    (h2 : 2 ≤ size)
    (hrun : CompleteRun input size (startupState input size) sched = true) :
    (∀ i : ℕ, i < input.length →
      (runSched input (startupState input size) sched).output (i : ℤ)
        = func_cheap (input.getD i 0))
    ∧ (∀ (s : MState) (q : ℕ) (y : ℤ),
        (recvStep input s q y).output (s.proc2inputIdx q) = y) := by
  rw [CompleteRun, Bool.and_eq_true, decide_eq_true_eq] at hrun
  obtain ⟨hv, hend⟩ := hrun
  have hs0 := startup_MInv input size h2
  have hT := validSteps_MInv input size sched _ hv hs0
  obtain ⟨hcfin, _, _, hinactive⟩ := final_state_all_done input size _ hT hend
  constructor
  · intro i hi
    apply hT.output_done i (by omega)
    intro k hk0 hks
    rw [hinactive k hk0 hks]
    omega
  · intro s q y
    by_cases hc : s.counter < input.length
    · rw [recvStep_assign input s q y hc]
      exact upd_self _ _ _
    · rw [recvStep_term input s q y hc]
      exact upd_self _ _ _

/-- Witness for C4: the same complete run as for C1; task 0's result
lands at output position 0 even though worker 1 also computed task 2. -/
theorem claim_C4_witness :
    (2 ≤ 3
      ∧ CompleteRun [5, 7, 2] 3 (startupState [5, 7, 2] 3) [1, 2, 1] = true)
    ∧ ((∀ i : ℕ, i < ([5, 7, 2] : List ℤ).length →
        (runSched [5, 7, 2] (startupState [5, 7, 2] 3) [1, 2, 1]).output (i : ℤ)
          = func_cheap (([5, 7, 2] : List ℤ).getD i 0))
      ∧ (∀ (s : MState) (q : ℕ) (y : ℤ),
          (recvStep [5, 7, 2] s q y).output (s.proc2inputIdx q) = y)) :=
  ⟨⟨by omega, by decide⟩, claim_C4 [5, 7, 2] 3 [1, 2, 1] (by omega) (by decide)⟩

/-- Claim C5: whenever `W > N`, over any complete run the ranks
`1..N` are each sent exactly one task (their startup task) followed by
the termination value, and the ranks beyond `N` are sent only the
termination value, at startup, and never a task. -/
theorem claim_C5 (input : List ℤ) (size : ℕ) (sched : List ℕ)
    (h2 : 2 ≤ size) (hWN : input.length < size - 1)
    (hrun : CompleteRun input size (startupState input size) sched = true) :
    ∀ k : ℕ, 0 < k → k < size →
      (k ≤ input.length →
        (runSched input (startupState input size) sched).sentTo k
          = [input.getD (k - 1) 0, -1])
      ∧ (input.length < k →
        (runSched input (startupState input size) sched).sentTo k = [-1]) := by
  rw [CompleteRun, Bool.and_eq_true, decide_eq_true_eq] at hrun
  obtain ⟨hv, hend⟩ := hrun
  have hs0 := startup_MInv input size h2
  have hT := validSteps_MInv input size sched _ hv hs0
  obtain ⟨_, _, _, hinactive⟩ := final_state_all_done input size _ hT hend
  obtain ⟨hc0, _, _, _, hass0⟩ := startupState_spec input size h2
  have hkmax : min (size - 1) input.length = input.length := by omega
  have hfroz := runSched_frozen input size sched _ hv hs0 (by rw [hc0, hkmax])
  intro k hk0 hks
  have hsent := hT.sent_char k hk0 hks
  rw [hfroz, hass0, hkmax, if_pos (hinactive k hk0 hks)] at hsent
  rw [hsent, assignsTo, filter_range_pairs]
  constructor
  · intro hkle
    rw [if_pos (by omega : 0 < k ∧ k - 1 < input.length)]
    rfl
  · intro hkgt
    rw [if_neg (by omega : ¬ (0 < k ∧ k - 1 < input.length))]
    rfl

/-- Witness for C5 at `N = 2`, `W = 4` (size 5): workers 1 and 2 get
one task each then terminate, workers 3 and 4 only terminate. -/
theorem claim_C5_witness :
    (2 ≤ 5 ∧ ([3, 4] : List ℤ).length < 5 - 1
      ∧ CompleteRun [3, 4] 5 (startupState [3, 4] 5) [1, 2] = true)
    ∧ (∀ k : ℕ, 0 < k → k < 5 →
        (k ≤ ([3, 4] : List ℤ).length →
          (runSched [3, 4] (startupState [3, 4] 5) [1, 2]).sentTo k
            = [([3, 4] : List ℤ).getD (k - 1) 0, -1])
        ∧ (([3, 4] : List ℤ).length < k →
          (runSched [3, 4] (startupState [3, 4] 5) [1, 2]).sentTo k = [-1])) :=
  ⟨⟨by omega, by decide, by decide⟩,
    claim_C5 [3, 4] 5 [1, 2] (by omega) (by decide) (by decide)⟩

/-- Claim C6: with `N = 0` tasks, startup sends every worker only the
termination value, `N_activeProc` is already `0`, and the receive loop
never runs — the only complete schedule is the empty one, so the
master terminates without blocking on any result. -/
theorem claim_C6 (input : List ℤ) (size : ℕ)
    (h2 : 2 ≤ size) (hN : input.length = 0) :
    (startupState input size).nActive = 0
    ∧ (∀ k : ℕ, 0 < k → k < size → (startupState input size).sentTo k = [-1])
    ∧ (∀ sched : List ℕ,
        CompleteRun input size (startupState input size) sched = true →
        sched = []) := by
  obtain ⟨hc0, hn0, _, hsent, _⟩ := startupState_spec input size h2
  have hkmax : min (size - 1) input.length = 0 := by omega
  refine ⟨?_, ?_, ?_⟩
  · rw [hn0, hkmax]
    rfl
  · intro k hk0 hks
    rw [hsent k hk0 hks, if_neg (by omega)]
  · intro sched hrun
    rw [CompleteRun, Bool.and_eq_true, decide_eq_true_eq] at hrun
    obtain ⟨hv, _⟩ := hrun
    cases sched with
    | nil => rfl
    | cons p rest =>
      exfalso
      simp only [ValidSteps, Bool.and_eq_true, decide_eq_true_eq] at hv
      have hact := hv.1.1.1.1
      rw [hn0, hkmax] at hact
      simp at hact

/-- Witness for C6 at `N = 0`, `W = 2`. -/
theorem claim_C6_witness :
    (2 ≤ 3 ∧ ([] : List ℤ).length = 0)
    ∧ ((startupState [] 3).nActive = 0
      ∧ (∀ k : ℕ, 0 < k → k < 3 → (startupState [] 3).sentTo k = [-1])
      ∧ (∀ sched : List ℕ,
          CompleteRun [] 3 (startupState [] 3) sched = true → sched = [])) :=
  ⟨⟨by omega, rfl⟩, claim_C6 [] 3 (by omega) rfl⟩

/-- Claim C7: after startup and any consistent sequence of receives,
`N_activeProc` equals the number of slave slots whose entry is not the
inactive marker `-1`; and a receive from a live rank decrements it by
exactly one precisely when the rank is sent the termination value
(which also inactivates its slot, so a second decrement for the same
rank cannot occur in a consistent run), while a receive that dispatches
a further task leaves it unchanged. -/
theorem claim_C7 (input : List ℤ) (size : ℕ) (sched : List ℕ)
    (h2 : 2 ≤ size)
    (hv : ValidSteps input size (startupState input size) sched = true) :
    ((runSched input (startupState input size) sched).nActive
      = ((∑ k in Finset.Ioo 0 size,
          if (runSched input (startupState input size) sched).proc2inputIdx k ≠ -1
          then (1 : ℕ) else 0) : ℤ))
    ∧ (∀ (q : ℕ) (y : ℤ), 0 < q → q < size →
        0 ≤ (runSched input (startupState input size) sched).proc2inputIdx q →
        ((runSched input (startupState input size) sched).counter < input.length →
          (recvStep input (runSched input (startupState input size) sched) q y).nActive
              = (runSched input (startupState input size) sched).nActive
            ∧ (recvStep input (runSched input (startupState input size) sched) q y).sentTo q
              = (runSched input (startupState input size) sched).sentTo q
                  ++ [input.getD (runSched input (startupState input size) sched).counter 0])
        ∧ (input.length ≤ (runSched input (startupState input size) sched).counter →
          (recvStep input (runSched input (startupState input size) sched) q y).nActive
              = (runSched input (startupState input size) sched).nActive - 1
            ∧ (recvStep input (runSched input (startupState input size) sched) q y).sentTo q
              = (runSched input (startupState input size) sched).sentTo q ++ [-1]
            ∧ (recvStep input (runSched input (startupState input size) sched) q y).proc2inputIdx q
              = -1)) := by
  have hs0 := startup_MInv input size h2
  have hT := validSteps_MInv input size sched _ hv hs0
  constructor
  · have hac := hT.active_count
    have hsum : countActive size (runSched input (startupState input size) sched)
        = ∑ k in Finset.Ioo 0 size,
            if (runSched input (startupState input size) sched).proc2inputIdx k ≠ -1
            then (1 : ℕ) else 0 := by
      rw [countActive]
      refine Finset.sum_congr rfl ?_
      intro k hk
      rw [Finset.mem_Ioo] at hk
      rcases hT.entries k hk.1 hk.2 with h | h
      · rw [h]
        decide
      · obtain ⟨ha, hb⟩ := h
        rw [if_pos ha, if_pos (by omega)]
    rw [hac, hsum, Nat.cast_sum]
    refine Finset.sum_congr rfl ?_
    intro k hk
    by_cases hcond :
      (runSched input (startupState input size) sched).proc2inputIdx k ≠ -1
    · rw [if_pos hcond, if_pos hcond]
    · rw [if_neg hcond, if_neg hcond]
      rfl
  · intro q y hq0 hqs hqe
    constructor
    · intro hc
      rw [recvStep_assign input _ q y hc]
      exact ⟨rfl, upd_self _ _ _⟩
    · intro hc
      rw [recvStep_term input _ q y (by omega)]
      exact ⟨rfl, upd_self _ _ _, upd_self _ _ _⟩

/-- Witness for C7: the run of `N = 3` on `W = 2` after one receive. -/
theorem claim_C7_witness :
    (2 ≤ 3 ∧ ValidSteps [5, 7, 2] 3 (startupState [5, 7, 2] 3) [1] = true)
    ∧ (((runSched [5, 7, 2] (startupState [5, 7, 2] 3) [1]).nActive
        = ((∑ k in Finset.Ioo 0 3,
            if (runSched [5, 7, 2] (startupState [5, 7, 2] 3) [1]).proc2inputIdx k ≠ -1
            then (1 : ℕ) else 0) : ℤ))
      ∧ (∀ (q : ℕ) (y : ℤ), 0 < q → q < 3 →
          0 ≤ (runSched [5, 7, 2] (startupState [5, 7, 2] 3) [1]).proc2inputIdx q →
          ((runSched [5, 7, 2] (startupState [5, 7, 2] 3) [1]).counter
              < ([5, 7, 2] : List ℤ).length →
            (recvStep [5, 7, 2] (runSched [5, 7, 2] (startupState [5, 7, 2] 3) [1]) q y).nActive
                = (runSched [5, 7, 2] (startupState [5, 7, 2] 3) [1]).nActive
              ∧ (recvStep [5, 7, 2] (runSched [5, 7, 2] (startupState [5, 7, 2] 3) [1]) q y).sentTo q
                = (runSched [5, 7, 2] (startupState [5, 7, 2] 3) [1]).sentTo q
                    ++ [([5, 7, 2] : List ℤ).getD
                        (runSched [5, 7, 2] (startupState [5, 7, 2] 3) [1]).counter 0])
          ∧ (([5, 7, 2] : List ℤ).length
              ≤ (runSched [5, 7, 2] (startupState [5, 7, 2] 3) [1]).counter →
            (recvStep [5, 7, 2] (runSched [5, 7, 2] (startupState [5, 7, 2] 3) [1]) q y).nActive
                = (runSched [5, 7, 2] (startupState [5, 7, 2] 3) [1]).nActive - 1
              ∧ (recvStep [5, 7, 2] (runSched [5, 7, 2] (startupState [5, 7, 2] 3) [1]) q y).sentTo q
                = (runSched [5, 7, 2] (startupState [5, 7, 2] 3) [1]).sentTo q ++ [-1]
              ∧ (recvStep [5, 7, 2] (runSched [5, 7, 2] (startupState [5, 7, 2] 3) [1]) q y).proc2inputIdx q
                = -1))) :=
  ⟨⟨by omega, by decide⟩, claim_C7 [5, 7, 2] 3 [1] (by omega) (by decide)⟩

/-- Counterexample to claim C2 as stated.  In the run with `N = 1`,
`size = 3`, rank 2 is never assigned a task: after startup its slot
holds the inactive marker `-1`.  On receiving a (stray) result `9` from
rank 2, the master does not abort: the specified checked step would
return `none`, but the implemented step records the value through the
stored index (the write lands at position `-1`, out of bounds for the
C++ `output` vector), sends rank 2 a second termination value, and
decrements `N_activeProc` to `0` even though rank 1 is still computing
task 0 — dispatch continues. -/
theorem claim_C2_counterexample :
    (startupState [5] 3).proc2inputIdx 2 = -1
    ∧ recvStepChecked [5] (startupState [5] 3) 2 9 = none
    ∧ (recvStep [5] (startupState [5] 3) 2 9).sentTo 2 = [-1, -1]
    ∧ (recvStep [5] (startupState [5] 3) 2 9).nActive = 0
    ∧ (recvStep [5] (startupState [5] 3) 2 9).output (-1) = 9 := by
  exact ⟨by decide, rfl, by decide, by decide, by decide⟩

/-- Claim C2, amended: the master performs no validation of the sender
(lines 97-101 contain no check and no abort path).  A result received
from a rank whose slot holds the inactive marker is handled by the same
code path as any other result — the checked step of the specification
would abort (`none`), but the implemented step records the value
through the stored index `-1` (out of bounds for the C++ vector,
modelled as position `-1` of the idealised store) and continues
dispatch: the rank is sent the next input value when tasks remain,
otherwise another termination value together with another decrement of
`N_activeProc` (corrupting the active count). -/
theorem claim_C2 (input : List ℤ) (s : MState) (p : ℕ) (y : ℤ)
    (h : s.proc2inputIdx p = -1) :
    recvStepChecked input s p y = none
    ∧ (recvStep input s p y).output (-1) = y
    ∧ ((s.counter < input.length
        ∧ (recvStep input s p y).sentTo p = s.sentTo p ++ [input.getD s.counter 0]
        ∧ (recvStep input s p y).counter = s.counter + 1)
      ∨ (¬ s.counter < input.length
        ∧ (recvStep input s p y).sentTo p = s.sentTo p ++ [-1]
        ∧ (recvStep input s p y).nActive = s.nActive - 1)) := by
  refine ⟨?_, ?_, ?_⟩
  · rw [recvStepChecked, if_pos (by rw [h]; omega)]
  · by_cases hc : s.counter < input.length
    · rw [recvStep_assign input s p y hc]
      show upd s.output (s.proc2inputIdx p) y (-1) = y
      rw [h]
      exact upd_self _ _ _
    · rw [recvStep_term input s p y hc]
      show upd s.output (s.proc2inputIdx p) y (-1) = y
      rw [h]
      exact upd_self _ _ _
  · by_cases hc : s.counter < input.length
    · left
      rw [recvStep_assign input s p y hc]
      exact ⟨hc, upd_self _ _ _, rfl⟩
    · right
      rw [recvStep_term input s p y hc]
      exact ⟨hc, upd_self _ _ _, rfl⟩

/-- Witness for the amended C2 at the concrete protocol-violation
input of the counterexample. -/
theorem claim_C2_witness :
    (startupState [5] 3).proc2inputIdx 2 = -1
    ∧ (recvStepChecked [5] (startupState [5] 3) 2 9 = none
      ∧ (recvStep [5] (startupState [5] 3) 2 9).output (-1) = 9
      ∧ (((startupState [5] 3).counter < ([5] : List ℤ).length
          ∧ (recvStep [5] (startupState [5] 3) 2 9).sentTo 2
            = (startupState [5] 3).sentTo 2 ++ [([5] : List ℤ).getD (startupState [5] 3).counter 0]
          ∧ (recvStep [5] (startupState [5] 3) 2 9).counter
            = (startupState [5] 3).counter + 1)
        ∨ (¬ (startupState [5] 3).counter < ([5] : List ℤ).length
          ∧ (recvStep [5] (startupState [5] 3) 2 9).sentTo 2
            = (startupState [5] 3).sentTo 2 ++ [-1]
          ∧ (recvStep [5] (startupState [5] 3) 2 9).nActive
            = (startupState [5] 3).nActive - 1))) :=
  ⟨by decide, claim_C2 [5] (startupState [5] 3) 2 9 (by decide)⟩
